import Mathlib

/-!
Verification of the nearest-projection mapping core (`NearestProjectionMapping.cpp`)
of the preCICE mapping component.

The mapping class is embedded shallowly: meshes, stencils and the mapping state are
plain data, every operation is a computable function, machine doubles are modelled as
exact rationals, and the C++ `assertion` macro (which aborts the process) is modelled
as an `Except.error`.  Collaborator code that is not part of the repository snapshot
(the boost R-tree index, the projection kernels of `query::`, `math::equals`) is
modelled from the specification; each such definition carries a doc comment starting
with "Modelled from the spec".
-/

namespace NPM

/-- Mesh vertex: stable identifier, fixed rational coordinates and a mutable tag bit. -/
structure Vertex where
  id : Nat
  coords : List ℚ
  tagged : Bool
deriving DecidableEq, Repr

instance : Inhabited Vertex := ⟨⟨0, [], false⟩⟩

/-- Mesh edge: an ordered pair of vertices. -/
structure Edge where
  v0 : Vertex
  v1 : Vertex
deriving DecidableEq, Repr

instance : Inhabited Edge := ⟨⟨default, default⟩⟩

/-- Mesh triangle: an ordered triple of vertices. -/
structure Triangle where
  v0 : Vertex
  v1 : Vertex
  v2 : Vertex
deriving DecidableEq, Repr

instance : Inhabited Triangle := ⟨⟨default, default, default⟩⟩

/-- Mesh: insertion-ordered sequences of vertices, edges and triangles
(each primitive addressable by its position). -/
structure Mesh where
  vertices : List Vertex
  edges : List Edge
  triangles : List Triangle
deriving DecidableEq, Repr

/-- One entry of a stencil, `query::InterpolationElement`: the referenced search-mesh
vertex and its weight.  The C++ member `element` is a vertex pointer; following the
spec's design note on cyclic references it is modelled by the vertex's stable
identifier, which is what `map` reads via `elem.element->getID()`. -/
structure InterpolationElement where
  vertexId : Nat
  weight : ℚ
deriving DecidableEq, Repr

/-- Alias matching `query::InterpolationElements = std::vector<InterpolationElement>`. -/
abbrev InterpolationElements := List InterpolationElement

/-- Mapping constraint, `Mapping::CONSISTENT` or `Mapping::CONSERVATIVE`. -/
inductive Constraint where
  | consistent
  | conservative
deriving DecidableEq, Repr

/-- Declared mesh requirement, `Mapping::MeshRequirement::FULL` or `::VERTEX`. -/
inductive MeshRequirement where
  | full
  | vertex
deriving DecidableEq, Repr

/-- State of one `NearestProjectionMapping` instance: the constructor arguments, the
requirements declared by the constructor, the two meshes held by the `Mapping` base
class, the stencil table `_weights` and the flag `_hasComputedMapping`. -/
structure NPMapping where
  constraint : Constraint
  dimensions : Nat
  inputRequirement : MeshRequirement
  outputRequirement : MeshRequirement
  input : Mesh
  output : Mesh
  weights : List InterpolationElements
  hasComputedFlag : Bool
deriving DecidableEq, Repr

/-- Constructor `NearestProjectionMapping::NearestProjectionMapping(constraint, dimensions)`:
declares FULL input / VERTEX output for a consistent instance and the mirror for a
conservative one; the stencil table starts empty and no mapping is computed yet. -/
def NearestProjectionMapping (constraint : Constraint) (dimensions : Nat)
    (input output : Mesh) : NPMapping :=
  match constraint with
  | .consistent =>
    { constraint := .consistent, dimensions, inputRequirement := .full,
      outputRequirement := .vertex, input, output, weights := [], hasComputedFlag := false }
  | .conservative =>
    { constraint := .conservative, dimensions, inputRequirement := .vertex,
      outputRequirement := .full, input, output, weights := [], hasComputedFlag := false }

/-- Componentwise difference of coordinate vectors. -/
def vsub (a b : List ℚ) : List ℚ := (a.zip b).map fun p => p.1 - p.2

/-- Componentwise sum of coordinate vectors. -/
def vadd (a b : List ℚ) : List ℚ := (a.zip b).map fun p => p.1 + p.2

/-- Scalar multiple of a coordinate vector. -/
def smul (t : ℚ) (a : List ℚ) : List ℚ := a.map fun x => t * x

/-- Dot product of coordinate vectors. -/
def vdot (a b : List ℚ) : ℚ := ((a.zip b).map fun p => p.1 * p.2).sum

/-- Squared Euclidean norm. -/
def sqNorm (a : List ℚ) : ℚ := vdot a a

/-- Squared distance between two points. -/
def ptSqDist (p q : List ℚ) : ℚ := sqNorm (vsub p q)

/-- Modelled from the spec: the point→edge projection kernel of `query::` is not under
`src/`.  Spec §4.1: the line parameter `t` minimising the squared distance from `q`
to `v0 + t (v1 − v0)`.  Rational division by zero yields `t = 0` on a degenerate edge. -/
def edgeParam (q : List ℚ) (e : Edge) : ℚ :=
  let d := vsub e.v1.coords e.v0.coords
  vdot (vsub q e.v0.coords) d / vdot d d

/-- Modelled from the spec: `query::generateInterpolationElements` for an edge emits the
stencil {(v0, 1−t), (v1, t)} with signed weights returned as-is (spec §4.1). -/
def generateInterpolationElementsEdge (q : List ℚ) (e : Edge) : InterpolationElements :=
  let t := edgeParam q e
  [⟨e.v0.id, 1 - t⟩, ⟨e.v1.id, t⟩]

/-- Modelled from the spec: `query::generateInterpolationElements` for a vertex emits the
unit-weight stencil {(v, 1)} (spec §4.1). -/
def generateInterpolationElementsVertex (v : Vertex) : InterpolationElements :=
  [⟨v.id, 1⟩]

/-- Modelled from the spec: barycentric coordinates (λ0, λ1, λ2) of the orthogonal
projection of `q` onto the triangle's plane (spec §4.1).  A degenerate triangle (zero
Gram determinant) yields an all-negative triple so the cascade rejects the stencil and
falls through, matching the spec's DegenerateGeometry recovery (§7). -/
def triBary (q : List ℚ) (t : Triangle) : ℚ × ℚ × ℚ :=
  let e0 := vsub t.v1.coords t.v0.coords
  let e1 := vsub t.v2.coords t.v0.coords
  let w := vsub q t.v0.coords
  let a := vdot e0 e0
  let b := vdot e0 e1
  let c := vdot e1 e1
  let den := a * c - b * b
  if den = 0 then (-1, -1, -1)
  else
    let l1 := (c * vdot e0 w - b * vdot e1 w) / den
    let l2 := (a * vdot e1 w - b * vdot e0 w) / den
    (1 - l1 - l2, l1, l2)

/-- Modelled from the spec: `query::generateInterpolationElements` for a triangle emits
{(v0, λ0), (v1, λ1), (v2, λ2)} (spec §4.1). -/
def generateInterpolationElementsTriangle (q : List ℚ) (t : Triangle) : InterpolationElements :=
  let l := triBary q t
  [⟨t.v0.id, l.1⟩, ⟨t.v1.id, l.2.1⟩, ⟨t.v2.id, l.2.2⟩]

/-- Clamp a parameter to the unit interval. -/
def clamp01 (t : ℚ) : ℚ := if t < 0 then 0 else if 1 < t then 1 else t

/-- Squared distance from a point to an edge segment, the (squared) value of
`boost::geometry::distance(coords, tEdges[match])`; squaring preserves every comparison
the code performs on these nonnegative distances. -/
def edgeSqDist (q : List ℚ) (e : Edge) : ℚ :=
  let t := clamp01 (edgeParam q e)
  sqNorm (vsub q (vadd e.v0.coords (smul t (vsub e.v1.coords e.v0.coords))))

/-- Modelled from the spec: §4.3 step 1 recomputes a "point-to-plane distance" for every
candidate triangle; this is its squared value, built from the barycentric projection. -/
def triSqDist (q : List ℚ) (t : Triangle) : ℚ :=
  let l := triBary q t
  let e0 := vsub t.v1.coords t.v0.coords
  let e1 := vsub t.v2.coords t.v0.coords
  sqNorm (vsub (vsub q t.v0.coords) (vadd (smul l.2.1 e0) (smul l.2.2 e1)))

/-- Insert an element into a sorted list, in front of the first entry it relates to. -/
def insertLe (le : α → α → Bool) (x : α) : List α → List α
  | [] => [x]
  | y :: ys => if le x y then x :: y :: ys else y :: insertLe le x ys

/-- Stable insertion sort used to model both the index's deterministic ordering and
`std::sort` on candidate matches. -/
def insertionSortBy (le : α → α → Bool) : List α → List α
  | [] => []
  | x :: xs => insertLe le x (insertionSortBy le xs)

/-- Lexicographic order on (distance, identifier) pairs. -/
def nearLe (a b : ℚ × Nat) : Bool :=
  decide (a.1 < b.1) || (decide (a.1 = b.1) && decide (a.2 ≤ b.2))

/-- Modelled from the spec: the boost R-tree wrapper `mesh::rtree` is not under `src/`.
Spec §4.2 contract: `nearest(point, k)` returns the k primitives of the requested kind
with smallest distance to the point, ties broken deterministically by primitive
identifier (here the position in the insertion-ordered sequence); an empty kind gives
an empty result, not an error.  Returns positions into `prims`. -/
def kNearest [Inhabited α] (dist : α → ℚ) (prims : List α) (k : Nat) : List Nat :=
  ((insertionSortBy nearLe
      ((List.range prims.length).map fun i => (dist (prims.getD i default), i))).take k).map
    fun p => p.2

/-- Candidate record `MatchType`: distance from the origin and primitive index. -/
structure MatchType where
  distance : ℚ
  index : Nat
deriving DecidableEq, Repr

/-- Comparator `MatchType::operator<`: compares by `distance` alone; the `index` member
is not consulted. -/
def MatchType.lt (a b : MatchType) : Bool := decide (a.distance < b.distance)

/-- The call `std::sort(matches.begin(), matches.end())` under `MatchType::operator<`.
The model's sort is stable, keeping the index-query order for candidates the comparator
cannot separate; `std::sort` leaves that order unspecified. -/
def sortMatches (ms : List MatchType) : List MatchType :=
  insertionSortBy (fun a b => !(MatchType.lt b a)) ms

/-- Number of nearest primitives fetched per query, `constexpr int nnearest = 4`. -/
def nnearest : Nat := 4

/-- Edge candidate collection of `computeMapping`: query the 4 nearest edges, record
`(bg::distance(coords, tEdges[match]), match)` for each, then sort. -/
def edgeMatches (q : List ℚ) (edges : List Edge) : List MatchType :=
  sortMatches ((kNearest (edgeSqDist q) edges nnearest).map fun j =>
    ⟨edgeSqDist q (edges.getD j default), j⟩)

/-- Triangle candidate collection of `computeMapping` (3D branch). -/
def triMatches (q : List ℚ) (tris : List Triangle) : List MatchType :=
  sortMatches ((kNearest (triSqDist q) tris nnearest).map fun j =>
    ⟨triSqDist q (tris.getD j default), j⟩)

/-- Interiority test `std::all_of(weights, ..., elem.weight >= 0.0)`. -/
def isInterior (st : InterpolationElements) : Bool := st.all fun e => decide (0 ≤ e.weight)

/-- Scan of the sorted edge candidates: accept the first whose stencil is interior. -/
def firstInteriorEdge (q : List ℚ) (edges : List Edge) :
    List MatchType → Option InterpolationElements
  | [] => none
  | mt :: rest =>
    let w := generateInterpolationElementsEdge q (edges.getD mt.index default)
    if isInterior w then some w else firstInteriorEdge q edges rest

/-- Scan of the sorted triangle candidates: accept the first whose stencil is interior. -/
def firstInteriorTri (q : List ℚ) (tris : List Triangle) :
    List MatchType → Option InterpolationElements
  | [] => none
  | mt :: rest =>
    let w := generateInterpolationElementsTriangle q (tris.getD mt.index default)
    if isInterior w then some w else firstInteriorTri q tris rest

/-- Vertex fallback of `computeMapping`: query the single nearest vertex and store the
unit-weight stencil for it; if the query returns nothing (no vertices in the search
mesh) the slot keeps its previous contents. -/
def vertexStencil (q : List ℚ) (vs : List Vertex) (prev : InterpolationElements) :
    InterpolationElements :=
  match kNearest (fun v => ptSqDist q v.coords) vs 1 with
  | [] => prev
  | j :: _ => generateInterpolationElementsVertex (vs.getD j default)

/-- Per-origin body of the 2D loop of `computeMapping`: edge cascade, then vertex
fallback. -/
def stencilFor2D (search : Mesh) (prev : InterpolationElements) (q : List ℚ) :
    InterpolationElements :=
  match firstInteriorEdge q search.edges (edgeMatches q search.edges) with
  | some w => w
  | none => vertexStencil q search.vertices prev

/-- Per-origin body of the 3D loop of `computeMapping`: triangle cascade, then edge
cascade, then vertex fallback. -/
def stencilFor3D (search : Mesh) (prev : InterpolationElements) (q : List ℚ) :
    InterpolationElements :=
  match firstInteriorTri q search.triangles (triMatches q search.triangles) with
  | some w => w
  | none =>
    match firstInteriorEdge q search.edges (edgeMatches q search.edges) with
    | some w => w
    | none => vertexStencil q search.vertices prev

/-- Direction selection of `computeMapping`: the origins mesh. -/
def originsMesh (s : NPMapping) : Mesh :=
  match s.constraint with
  | .consistent => s.output
  | .conservative => s.input

/-- Direction selection of `computeMapping`: the search-space mesh. -/
def searchMesh (s : NPMapping) : Mesh :=
  match s.constraint with
  | .consistent => s.input
  | .conservative => s.output

/-- Mesh tagged by `tagMeshFirstRound`: the input mesh for a consistent instance, the
output mesh for a conservative one (that is, the search mesh of `computeMapping`). -/
def tagTargetMesh (s : NPMapping) : Mesh :=
  match s.constraint with
  | .consistent => s.input
  | .conservative => s.output

/-- The call `_weights.resize(fVertices.size())` on a `std::vector`: keeps the first `n`
entries and appends default-constructed (empty) stencils. -/
def resizeStencils (ws : List InterpolationElements) (n : Nat) : List InterpolationElements :=
  ws.take n ++ List.replicate (n - ws.length) []

/-- Operation `NearestProjectionMapping::computeMapping`: resize the stencil table to the
origin count, fill slot `i` from origin vertex `i` by the dimension-dependent cascade
(each slot depends only on its own origin, so the loop is a map over the indices), then
set `_hasComputedMapping = true`.  There is no failure path. -/
def computeMapping (s : NPMapping) : NPMapping :=
  let origins := originsMesh s
  let search := searchMesh s
  let n := origins.vertices.length
  let ws0 := resizeStencils s.weights n
  let ws :=
    if s.dimensions = 2 then
      (List.range n).map fun i =>
        stencilFor2D search (ws0.getD i []) (origins.vertices.getD i default).coords
    else
      (List.range n).map fun i =>
        stencilFor3D search (ws0.getD i []) (origins.vertices.getD i default).coords
  { s with weights := ws, hasComputedFlag := true }

/-- Operation `NearestProjectionMapping::hasComputedMapping`. -/
def hasComputedMapping (s : NPMapping) : Bool := s.hasComputedFlag

/-- Operation `NearestProjectionMapping::clear`: empty the stencil table and reset the
flag. -/
def clear (s : NPMapping) : NPMapping := { s with weights := [], hasComputedFlag := false }

/-- Error outcomes of `map`.  The spec's taxonomy (§7) names StaleStencils and
DimensionMismatch; the code's only failure mechanism is the `assertion` macro, which
aborts the process and is modelled as `assertionFailure`. -/
inductive MapErr where
  | staleStencils
  | dimensionMismatch
  | assertionFailure
deriving DecidableEq, Repr

/-- Accumulating write `values(j) += v` on a flat field array. -/
def addAt (xs : List ℚ) (j : Nat) (v : ℚ) : List ℚ := xs.set j (xs.getD j 0 + v)

/-- Innermost loop of `map`: for every component `dim < m`, add
`w * inValues(inOff + dim)` into `outValues(outOff + dim)`. -/
def applyEntry (m : Nat) (w : ℚ) (inV : List ℚ) (inOff outOff : Nat) (out : List ℚ) :
    List ℚ :=
  (List.range m).foldl
    (fun acc dim => addAt acc (outOff + dim) (w * inV.getD (inOff + dim) 0)) out

/-- Consistent per-origin loop of `map`: every element of the stencil reads from the
block of its referenced vertex and accumulates into the origin's output block. -/
def applyStencilConsistent (m : Nat) (inV : List ℚ) (outOff : Nat)
    (elems : InterpolationElements) (out : List ℚ) : List ℚ :=
  elems.foldl (fun acc e => applyEntry m e.weight inV (e.vertexId * m) outOff acc) out

/-- Conservative per-origin loop of `map`: every element of the stencil reads from the
origin's input block and accumulates into the block of its referenced vertex. -/
def applyStencilConservative (m : Nat) (inV : List ℚ) (inOff : Nat)
    (elems : InterpolationElements) (out : List ℚ) : List ℚ :=
  elems.foldl (fun acc e => applyEntry m e.weight inV inOff (e.vertexId * m) acc) out

/-- Outer consistent loop of `map` over the origin (output) vertices. -/
def mapConsistentLoop (m : Nat) (inV : List ℚ) (wss : List InterpolationElements)
    (out : List ℚ) : List ℚ :=
  (List.range wss.length).foldl
    (fun acc i => applyStencilConsistent m inV (i * m) (wss.getD i []) acc) out

/-- Outer conservative loop of `map` over the origin (input) vertices. -/
def mapConservativeLoop (m : Nat) (inV : List ℚ) (wss : List InterpolationElements)
    (out : List ℚ) : List ℚ :=
  (List.range wss.length).foldl
    (fun acc i => applyStencilConservative m inV (i * m) (wss.getD i []) acc) out

/-- Truncation of the outer consistent loop to its first `n` iterations (used to reason
about the loop by induction; the full loop is the case `n = wss.length`). -/
def consistentUpTo (m : Nat) (inV : List ℚ) (wss : List InterpolationElements)
    (n : Nat) (out : List ℚ) : List ℚ :=
  (List.range n).foldl
    (fun acc i => applyStencilConsistent m inV (i * m) (wss.getD i []) acc) out

/-- Truncation of the outer conservative loop to its first `n` iterations. -/
def conservativeUpTo (m : Nat) (inV : List ℚ) (wss : List InterpolationElements)
    (n : Nat) (out : List ℚ) : List ℚ :=
  (List.range n).foldl
    (fun acc i => applyStencilConservative m inV (i * m) (wss.getD i []) acc) out

/-- Weighted sum a stencil contributes to one output component under the consistent
direction: the weights applied to the referenced input-block entries of component
`dim`. -/
def stencilDot (m : Nat) (inV : List ℚ) (elems : InterpolationElements) (dim : Nat) : ℚ :=
  (elems.map fun e => e.weight * inV.getD (e.vertexId * m + dim) 0).sum

/-- Total contribution of one stencil under the conservative direction: every element
spreads the origin's input block, scaled by its weight, over the output. -/
def stencilSpread (m : Nat) (inV : List ℚ) (inOff : Nat) (elems : InterpolationElements) : ℚ :=
  (elems.map fun e =>
    ((List.range m).map fun dim => e.weight * inV.getD (inOff + dim) 0).sum).sum

/-- Conjunction of the per-write `assertion` bounds checks of the consistent loop. -/
def boundsOkConsistent (m : Nat) (wss : List InterpolationElements)
    (inLen outLen : Nat) : Bool :=
  (List.range wss.length).all fun i =>
    (wss.getD i []).all fun e =>
      (List.range m).all fun dim =>
        decide (i * m + dim < outLen) && decide (e.vertexId * m + dim < inLen)

/-- Conjunction of the per-write `assertion` bounds checks of the conservative loop. -/
def boundsOkConservative (m : Nat) (wss : List InterpolationElements)
    (inLen outLen : Nat) : Bool :=
  (List.range wss.length).all fun i =>
    (wss.getD i []).all fun e =>
      (List.range m).all fun dim =>
        decide (i * m + dim < inLen) && decide (e.vertexId * m + dim < outLen)

/-- Operation `NearestProjectionMapping::map(inputDataID, outputDataID)`.  The C++
`assertion` macro aborts the process; an abort is modelled as
`Except.error .assertionFailure`.  Because an abort discards every effect, the per-write
bounds assertions are hoisted in front of the loop (they depend only on sizes, which
the loop preserves).  The instance itself is returned unchanged: the method touches
neither `_weights` nor `_hasComputedMapping`, and it performs no staleness check. -/
def mapOp (s : NPMapping) (inDims outDims : Nat) (inValues outValues : List ℚ) :
    Except MapErr (NPMapping × List ℚ) :=
  if inDims ≠ outDims then .error .assertionFailure
  else
    match s.constraint with
    | .consistent =>
      if s.weights.length ≠ s.output.vertices.length then .error .assertionFailure
      else if boundsOkConsistent inDims s.weights inValues.length outValues.length then
        .ok (s, mapConsistentLoop inDims inValues s.weights outValues)
      else .error .assertionFailure
    | .conservative =>
      if s.weights.length ≠ s.input.vertices.length then .error .assertionFailure
      else if boundsOkConservative inDims s.weights inValues.length outValues.length then
        .ok (s, mapConservativeLoop inDims inValues s.weights outValues)
      else .error .assertionFailure

/-- Modelled from the spec: `math::equals` is not under `src/`; the spec's tagging step
collects elements "with nonzero weight", so the comparison is modelled as exact
equality. -/
def mathEquals (a b : ℚ) : Bool := decide (a = b)

/-- Set insertion into the gathered id list, `tagged.insert(elem.element)`. -/
def insertTagged (acc : List Nat) (i : Nat) : List Nat :=
  if i ∈ acc then acc else i :: acc

/-- Gather phase over one stencil: insert the ids of all elements whose weight is not
(approximately) zero. -/
def collectStencil (acc : List Nat) (elems : InterpolationElements) : List Nat :=
  elems.foldl (fun a e => if mathEquals e.weight 0 then a else insertTagged a e.vertexId) acc

/-- Gather phase of `tagMeshFirstRound` over the whole stencil table, with the
`max_count` shortcut tested after each stencil. -/
def collectTagged (maxCount : Nat) : List InterpolationElements → List Nat → List Nat
  | [], acc => acc
  | ws :: rest, acc =>
    let acc2 := collectStencil acc ws
    if acc2.length = maxCount then acc2 else collectTagged maxCount rest acc2

/-- Second phase of `tagMeshFirstRound`: set the tag bit of every gathered vertex. -/
def tagVertices (ids : List Nat) (mesh : Mesh) : Mesh :=
  { mesh with vertices := mesh.vertices.map fun v =>
      if v.id ∈ ids then { v with tagged := true } else v }

/-- Operation `NearestProjectionMapping::tagMeshFirstRound`: compute the mapping, gather
the vertices referenced with nonzero weight, tag them on the input mesh (consistent) or
the output mesh (conservative), then `clear()`.  Pointer identity between element
targets and tag-mesh vertices is modelled as identifier equality (spec §9, the open
question on aliasing). -/
def tagMeshFirstRound (s : NPMapping) : NPMapping :=
  let s1 := computeMapping s
  let tagMesh :=
    match s1.constraint with
    | .consistent => s1.input
    | .conservative => s1.output
  let ids := collectTagged tagMesh.vertices.length s1.weights []
  let tagMesh2 := tagVertices ids tagMesh
  let s2 :=
    match s1.constraint with
    | .consistent => { s1 with input := tagMesh2 }
    | .conservative => { s1 with output := tagMesh2 }
  clear s2

/-- Operation `NearestProjectionMapping::tagMeshSecondRound`: a no-op for this mapping
flavour. -/
def tagMeshSecondRound (s : NPMapping) : NPMapping := s

/-! ### Concrete example instances used by witnesses and counterexamples -/

/-- A mesh with no primitives of any dimension. -/
def exEmptyMesh : Mesh := ⟨[], [], []⟩

/-- A mesh holding one vertex and nothing else. -/
def exMeshOneV : Mesh := ⟨[⟨0, [], false⟩], [], []⟩

/-- A mesh holding two vertices and nothing else. -/
def exMeshTwoV : Mesh := ⟨[⟨0, [], false⟩, ⟨1, [], false⟩], [], []⟩

/-- Freshly constructed consistent instance over two empty meshes. -/
def exStateA : NPMapping := NearestProjectionMapping .consistent 2 exEmptyMesh exEmptyMesh

/-- Freshly constructed consistent instance: empty input (search) mesh, one origin
(output) vertex. -/
def exStateB : NPMapping := NearestProjectionMapping .consistent 2 exEmptyMesh exMeshOneV

/-- Consistent instance with a populated stencil table: each of the two output vertices
holds a unit-weight stencil on the like-numbered input vertex. -/
def exStateC1 : NPMapping :=
  { constraint := .consistent, dimensions := 2, inputRequirement := .full,
    outputRequirement := .vertex, input := exMeshTwoV, output := exMeshTwoV,
    weights := [[⟨0, 1⟩], [⟨1, 1⟩]], hasComputedFlag := true }

/-- Conservative instance with a populated stencil table: the single input vertex holds
a unit-weight stencil on the single output vertex. -/
def exStateC2 : NPMapping :=
  { constraint := .conservative, dimensions := 2, inputRequirement := .vertex,
    outputRequirement := .full, input := exMeshOneV, output := exMeshOneV,
    weights := [[⟨0, 1⟩]], hasComputedFlag := true }

/-- Freshly constructed consistent instance over two one-vertex meshes: the vertex
fallback of `computeMapping` yields a unit-weight stencil on the input vertex. -/
def exStateD : NPMapping := NearestProjectionMapping .consistent 2 exMeshOneV exMeshOneV

/-! ### Generic facts about the insertion sort used by the model -/

theorem insertLe_perm (le : α → α → Bool) (x : α) (l : List α) :
    List.Perm (insertLe le x l) (x :: l) := by
  induction l with
  | nil => exact List.Perm.refl _
  | cons y ys ih =>
    simp only [insertLe]
    by_cases h : le x y
    · simp [h]
    · simp only [h, if_neg, Bool.false_eq_true, if_false]
      exact List.Perm.trans (List.Perm.cons y ih) (List.Perm.swap x y ys)

theorem insertionSortBy_perm (le : α → α → Bool) (l : List α) :
    List.Perm (insertionSortBy le l) l := by
  induction l with
  | nil => exact List.Perm.refl _
  | cons x xs ih =>
    exact List.Perm.trans (insertLe_perm le x (insertionSortBy le xs)) (List.Perm.cons x ih)

theorem mem_insertLe (le : α → α → Bool) (x y : α) (l : List α)
    (h : y ∈ insertLe le x l) : y = x ∨ y ∈ l := by
  have := (insertLe_perm le x l).mem_iff.mp h
  simpa using this

theorem insertLe_sorted (le : α → α → Bool)
    (htot : ∀ a b, le a b = true ∨ le b a = true)
    (htrans : ∀ a b c, le a b = true → le b c = true → le a c = true)
    (x : α) (l : List α) (hs : List.Pairwise (fun a b => le a b = true) l) :
    List.Pairwise (fun a b => le a b = true) (insertLe le x l) := by
  induction l with
  | nil => simp [insertLe]
  | cons y ys ih =>
    rcases hs with _ | ⟨hy, hys⟩
    simp only [insertLe]
    by_cases h : le x y = true
    · rw [if_pos h]
      refine List.Pairwise.cons ?_ (List.Pairwise.cons hy hys)
      intro z hz
      rcases List.mem_cons.mp hz with rfl | hz
      · exact h
      · exact htrans x y z h (hy z hz)
    · have hyx : le y x = true := by
        rcases htot x y with h1 | h1
        · exact absurd h1 h
        · exact h1
      rw [if_neg h]
      refine List.Pairwise.cons ?_ (ih hys)
      intro z hz
      rcases mem_insertLe le x z ys hz with rfl | hz
      · exact hyx
      · exact hy z hz

theorem insertionSortBy_sorted (le : α → α → Bool)
    (htot : ∀ a b, le a b = true ∨ le b a = true)
    (htrans : ∀ a b c, le a b = true → le b c = true → le a c = true)
    (l : List α) :
    List.Pairwise (fun a b => le a b = true) (insertionSortBy le l) := by
  induction l with
  | nil => simp [insertionSortBy]
  | cons x xs ih => exact insertLe_sorted le htot htrans x (insertionSortBy le xs) ih

/-- Unfolding of the lexicographic candidate order of the index model. -/
theorem nearLe_iff (a b : ℚ × Nat) :
    nearLe a b = true ↔ a.1 < b.1 ∨ (a.1 = b.1 ∧ a.2 ≤ b.2) := by
  simp [nearLe, Bool.or_eq_true, Bool.and_eq_true, decide_eq_true_iff]

theorem nearLe_total (a b : ℚ × Nat) : nearLe a b = true ∨ nearLe b a = true := by
  rw [nearLe_iff, nearLe_iff]
  rcases lt_trichotomy a.1 b.1 with h | h | h
  · exact Or.inl (Or.inl h)
  · rcases Nat.le_total a.2 b.2 with h2 | h2
    · exact Or.inl (Or.inr ⟨h, h2⟩)
    · exact Or.inr (Or.inr ⟨h.symm, h2⟩)
  · exact Or.inr (Or.inl h)

theorem nearLe_trans (a b c : ℚ × Nat) (h1 : nearLe a b = true) (h2 : nearLe b c = true) :
    nearLe a c = true := by
  rw [nearLe_iff] at h1 h2 ⊢
  rcases h1 with h1 | ⟨h1, h1'⟩ <;> rcases h2 with h2 | ⟨h2, h2'⟩
  · exact Or.inl (lt_trans h1 h2)
  · exact Or.inl (h2 ▸ h1)
  · exact Or.inl (h1 ▸ h2)
  · exact Or.inr ⟨h1.trans h2, h1'.trans h2'⟩

/-- Unfolding of the comparator-induced order used by `sortMatches`. -/
theorem matchLe_iff (a b : MatchType) :
    (!(MatchType.lt b a)) = true ↔ a.distance ≤ b.distance := by
  simp [MatchType.lt, not_lt]

theorem sortMatches_perm (ms : List MatchType) : List.Perm (sortMatches ms) ms :=
  insertionSortBy_perm _ ms

theorem sortMatches_sorted (ms : List MatchType) :
    List.Pairwise (fun a b => a.distance ≤ b.distance) (sortMatches ms) := by
  have h := insertionSortBy_sorted (fun a b => !(MatchType.lt b a))
    (fun a b => by
      rw [matchLe_iff, matchLe_iff]
      exact le_total a.distance b.distance)
    (fun a b c h1 h2 => by
      rw [matchLe_iff] at h1 h2 ⊢
      exact le_trans h1 h2) ms
  exact h.imp (fun {a b} hab => (matchLe_iff a b).mp hab)

/-! ### Facts about `computeMapping` on an empty search space -/

theorem kNearest_nil [Inhabited α] (dist : α → ℚ) (k : Nat) :
    kNearest dist ([] : List α) k = [] := by
  cases k <;> rfl

theorem stencilFor2D_emptySearch (search : Mesh) (prev : InterpolationElements)
    (q : List ℚ) (hv : search.vertices = []) (he : search.edges = []) :
    stencilFor2D search prev q = prev := by
  unfold stencilFor2D edgeMatches vertexStencil
  rw [he, hv]
  rfl

theorem stencilFor3D_emptySearch (search : Mesh) (prev : InterpolationElements)
    (q : List ℚ) (hv : search.vertices = []) (he : search.edges = [])
    (ht : search.triangles = []) :
    stencilFor3D search prev q = prev := by
  unfold stencilFor3D triMatches edgeMatches vertexStencil
  rw [he, hv, ht]
  rfl

theorem resizeStencils_nil (n : Nat) :
    resizeStencils [] n = List.replicate n [] := by
  simp [resizeStencils]

theorem getD_replicate_nil (n i : Nat) :
    (List.replicate n ([] : InterpolationElements)).getD i [] = [] := by
  rcases Nat.lt_or_ge i n with h | h
  · rw [List.getD_eq_getElem?_getD, List.getElem?_replicate]
    simp [h]
  · rw [List.getD_eq_getElem?_getD, List.getElem?_eq_none (by simpa using h)]
    rfl

/-! ### Slots of the stencil table produced by `computeMapping` -/

theorem getD_map_range (f : Nat → α) (n i : Nat) (d : α) (hi : i < n) :
    ((List.range n).map f).getD i d = f i := by
  rw [List.getD_eq_getElem _ _ (by simpa using hi)]
  simp

theorem computeMapping_weights_length (s : NPMapping) :
    (computeMapping s).weights.length = (originsMesh s).vertices.length := by
  unfold computeMapping
  dsimp only
  split <;> simp

theorem computeMapping_weights_getD (s : NPMapping) (i : Nat)
    (hi : i < (originsMesh s).vertices.length) :
    (computeMapping s).weights.getD i [] =
      (if s.dimensions = 2 then
        stencilFor2D (searchMesh s)
          ((resizeStencils s.weights (originsMesh s).vertices.length).getD i [])
          ((originsMesh s).vertices.getD i default).coords
      else
        stencilFor3D (searchMesh s)
          ((resizeStencils s.weights (originsMesh s).vertices.length).getD i [])
          ((originsMesh s).vertices.getD i default).coords) := by
  unfold computeMapping
  dsimp only
  split
  · rw [getD_map_range _ _ _ _ hi]
  · rw [getD_map_range _ _ _ _ hi]

/-! ### Facts about the gather phase of `tagMeshFirstRound` -/

theorem mem_insertTagged_self (acc : List Nat) (i : Nat) : i ∈ insertTagged acc i := by
  unfold insertTagged
  split
  · assumption
  · exact List.mem_cons_self _ _

theorem mem_insertTagged_of_mem (acc : List Nat) (i x : Nat) (hx : x ∈ acc) :
    x ∈ insertTagged acc i := by
  unfold insertTagged
  split
  · exact hx
  · exact List.mem_cons_of_mem _ hx

theorem mem_insertTagged_cases (acc : List Nat) (i x : Nat)
    (hx : x ∈ insertTagged acc i) : x = i ∨ x ∈ acc := by
  unfold insertTagged at hx
  split at hx
  · exact Or.inr hx
  · rcases List.mem_cons.mp hx with rfl | h
    · exact Or.inl rfl
    · exact Or.inr h

theorem insertTagged_nodup (acc : List Nat) (i : Nat) (h : acc.Nodup) :
    (insertTagged acc i).Nodup := by
  by_cases hmem : i ∈ acc
  · unfold insertTagged
    rw [if_pos hmem]
    exact h
  · unfold insertTagged
    rw [if_neg hmem]
    exact List.Nodup.cons hmem h

theorem collectStencil_cons (acc : List Nat) (e : InterpolationElement)
    (es : InterpolationElements) :
    collectStencil acc (e :: es) =
      collectStencil (if mathEquals e.weight 0 then acc else insertTagged acc e.vertexId)
        es := rfl

theorem mem_collectStencil_of_mem (elems : InterpolationElements) (acc : List Nat)
    (x : Nat) (hx : x ∈ acc) : x ∈ collectStencil acc elems := by
  induction elems generalizing acc with
  | nil => exact hx
  | cons e es ih =>
    rw [collectStencil_cons]
    apply ih
    split
    · exact hx
    · exact mem_insertTagged_of_mem _ _ _ hx

theorem mem_collectStencil_of_ref (elems : InterpolationElements) (acc : List Nat)
    (e : InterpolationElement) (he : e ∈ elems) (hz : mathEquals e.weight 0 = false) :
    e.vertexId ∈ collectStencil acc elems := by
  induction elems generalizing acc with
  | nil => exact absurd he (List.not_mem_nil e)
  | cons f fs ih =>
    rw [collectStencil_cons]
    rcases List.mem_cons.mp he with rfl | hmem
    · rw [if_neg (by simp [hz])]
      exact mem_collectStencil_of_mem _ _ _ (mem_insertTagged_self _ _)
    · exact ih _ hmem

theorem collectStencil_nodup (elems : InterpolationElements) (acc : List Nat)
    (h : acc.Nodup) : (collectStencil acc elems).Nodup := by
  induction elems generalizing acc with
  | nil => exact h
  | cons e es ih =>
    rw [collectStencil_cons]
    apply ih
    split
    · exact h
    · exact insertTagged_nodup _ _ h

theorem mem_collectStencil_cases (elems : InterpolationElements) (acc : List Nat)
    (x : Nat) (hx : x ∈ collectStencil acc elems) :
    x ∈ acc ∨ ∃ e ∈ elems, mathEquals e.weight 0 = false ∧ x = e.vertexId := by
  induction elems generalizing acc with
  | nil => exact Or.inl hx
  | cons e es ih =>
    rw [collectStencil_cons] at hx
    rcases ih _ hx with hacc | ⟨f, hf, hzf, rfl⟩
    · by_cases hz : mathEquals e.weight 0 = true
      · rw [if_pos hz] at hacc
        exact Or.inl hacc
      · rw [if_neg hz] at hacc
        rcases mem_insertTagged_cases _ _ _ hacc with rfl | h2
        · exact Or.inr ⟨e, List.mem_cons_self _ _, by simpa using hz, rfl⟩
        · exact Or.inl h2
    · exact Or.inr ⟨f, List.mem_cons_of_mem _ hf, hzf, rfl⟩

theorem collectTagged_cons (mc : Nat) (ws : InterpolationElements)
    (rest : List InterpolationElements) (acc : List Nat) :
    collectTagged mc (ws :: rest) acc =
      if (collectStencil acc ws).length = mc then collectStencil acc ws
      else collectTagged mc rest (collectStencil acc ws) := rfl

theorem mem_collectTagged_of_mem (mc : Nat) (wss : List InterpolationElements)
    (acc : List Nat) (x : Nat) (hx : x ∈ acc) : x ∈ collectTagged mc wss acc := by
  induction wss generalizing acc with
  | nil => exact hx
  | cons ws rest ih =>
    rw [collectTagged_cons]
    split
    · exact mem_collectStencil_of_mem _ _ _ hx
    · exact ih _ (mem_collectStencil_of_mem _ _ _ hx)

theorem mem_of_nodup_subset_length (l1 l2 : List Nat) (h1 : l1.Nodup) (h2 : l2.Nodup)
    (hsub : ∀ x ∈ l1, x ∈ l2) (hlen : l2.length ≤ l1.length) : ∀ x ∈ l2, x ∈ l1 := by
  have hf : l1.toFinset ⊆ l2.toFinset := by
    intro x hx
    rw [List.mem_toFinset] at hx ⊢
    exact hsub x hx
  have hc1 : l1.toFinset.card = l1.length := by
    rw [List.card_toFinset, List.dedup_eq_self.mpr h1]
  have hc2 : l2.toFinset.card = l2.length := by
    rw [List.card_toFinset, List.dedup_eq_self.mpr h2]
  have heq := Finset.eq_of_subset_of_card_le hf (by omega)
  intro x hx
  have hx2 : x ∈ l2.toFinset := List.mem_toFinset.mpr hx
  rw [← heq] at hx2
  exact List.mem_toFinset.mp hx2

theorem collectTagged_complete (mIds : List Nat) (hnd : mIds.Nodup) :
    ∀ (wss : List InterpolationElements) (acc : List Nat), acc.Nodup →
      (∀ x ∈ acc, x ∈ mIds) →
      (∀ st ∈ wss, ∀ e ∈ st, mathEquals e.weight 0 = false → e.vertexId ∈ mIds) →
      ∀ st ∈ wss, ∀ e ∈ st, mathEquals e.weight 0 = false →
        e.vertexId ∈ collectTagged mIds.length wss acc := by
  intro wss
  induction wss with
  | nil =>
    intro acc _ _ _ st hst
    exact absurd hst (List.not_mem_nil st)
  | cons ws rest ih =>
    intro acc hand hsub hrefs st hst e he hz
    have hsub2 : ∀ x ∈ collectStencil acc ws, x ∈ mIds := by
      intro x hx
      rcases mem_collectStencil_cases _ _ _ hx with h | ⟨f, hf, hzf, rfl⟩
      · exact hsub x h
      · exact hrefs ws (List.mem_cons_self _ _) f hf hzf
    have hnd2 : (collectStencil acc ws).Nodup := collectStencil_nodup _ _ hand
    rw [collectTagged_cons]
    by_cases hstop : (collectStencil acc ws).length = mIds.length
    · rw [if_pos hstop]
      exact mem_of_nodup_subset_length _ _ hnd2 hnd hsub2 (by omega) _
        (hrefs st hst e he hz)
    · rw [if_neg hstop]
      rcases List.mem_cons.mp hst with rfl | hst2
      · exact mem_collectTagged_of_mem _ _ _ _ (mem_collectStencil_of_ref _ _ _ he hz)
      · exact ih _ hnd2 hsub2 (fun st' hst' => hrefs st' (List.mem_cons_of_mem _ hst'))
          st hst2 e he hz

theorem getD_map_lt (f : α → β) (l : List α) (j : Nat) (d : β) (d0 : α)
    (hj : j < l.length) : (l.map f).getD j d = f (l.getD j d0) := by
  rw [List.getD_eq_getElem _ _ (by simpa using hj), List.getD_eq_getElem _ _ hj]
  simp

theorem tagMeshFirstRound_mesh_eq (s : NPMapping) :
    tagTargetMesh (tagMeshFirstRound s) =
      tagVertices
        (collectTagged (tagTargetMesh s).vertices.length (computeMapping s).weights [])
        (tagTargetMesh s) := by
  obtain ⟨c, dm, ri, ro, mi, mo, ws, fl⟩ := s
  cases c <;> rfl

/-! ### Facts about the accumulation loops of `map` -/

theorem range_succ_append (n : Nat) : List.range (n + 1) = List.range n ++ [n] := by
  simpa using List.range_succ (n := n)

theorem addAt_length (xs : List ℚ) (j : Nat) (v : ℚ) :
    (addAt xs j v).length = xs.length := by
  simp [addAt]

theorem addAt_getD_ne (xs : List ℚ) (j k : Nat) (v : ℚ) (h : j ≠ k) :
    (addAt xs j v).getD k 0 = xs.getD k 0 := by
  simp [addAt, List.getD_eq_getElem?_getD, List.getElem?_set_ne h]

theorem addAt_getD_eq (xs : List ℚ) (j : Nat) (v : ℚ) (h : j < xs.length) :
    (addAt xs j v).getD j 0 = xs.getD j 0 + v := by
  simp [addAt, List.getD_eq_getElem?_getD, List.getElem?_set_self, h]

theorem addAt_cons_succ (x : ℚ) (xs : List ℚ) (j : Nat) (v : ℚ) :
    addAt (x :: xs) (j + 1) v = x :: addAt xs j v := rfl

theorem addAt_cons_zero (x : ℚ) (xs : List ℚ) (v : ℚ) :
    addAt (x :: xs) 0 v = (x + v) :: xs := rfl

theorem sum_addAt (xs : List ℚ) (j : Nat) (v : ℚ) (h : j < xs.length) :
    (addAt xs j v).sum = xs.sum + v := by
  induction xs generalizing j with
  | nil => simp at h
  | cons x xs ih =>
    cases j with
    | zero =>
      rw [addAt_cons_zero]
      simp
      ring
    | succ j =>
      rw [addAt_cons_succ]
      have h2 : j < xs.length := by simpa using h
      simp [ih j h2]
      ring

theorem applyEntry_succ (m : Nat) (w : ℚ) (inV : List ℚ) (inOff outOff : Nat)
    (out : List ℚ) :
    applyEntry (m + 1) w inV inOff outOff out =
      addAt (applyEntry m w inV inOff outOff out) (outOff + m)
        (w * inV.getD (inOff + m) 0) := by
  unfold applyEntry
  rw [range_succ_append, List.foldl_append]
  rfl

theorem applyEntry_length (m : Nat) (w : ℚ) (inV : List ℚ) (inOff outOff : Nat)
    (out : List ℚ) :
    (applyEntry m w inV inOff outOff out).length = out.length := by
  induction m with
  | zero => rfl
  | succ m ih => rw [applyEntry_succ, addAt_length, ih]

theorem applyEntry_getD_outside (m : Nat) (w : ℚ) (inV : List ℚ) (inOff outOff k : Nat)
    (out : List ℚ) (hk : k < outOff ∨ outOff + m ≤ k) :
    (applyEntry m w inV inOff outOff out).getD k 0 = out.getD k 0 := by
  induction m with
  | zero => rfl
  | succ m ih =>
    rw [applyEntry_succ, addAt_getD_ne _ _ _ _ (by omega)]
    exact ih (by omega)

theorem applyEntry_getD_in (m : Nat) (w : ℚ) (inV : List ℚ) (inOff outOff dim : Nat)
    (out : List ℚ) (hdim : dim < m) (hcell : outOff + dim < out.length) :
    (applyEntry m w inV inOff outOff out).getD (outOff + dim) 0 =
      out.getD (outOff + dim) 0 + w * inV.getD (inOff + dim) 0 := by
  induction m with
  | zero => omega
  | succ m ih =>
    rw [applyEntry_succ]
    rcases Nat.lt_or_ge dim m with h | h
    · rw [addAt_getD_ne _ _ _ _ (by omega)]
      exact ih h
    · have hdm : dim = m := by omega
      subst hdm
      rw [addAt_getD_eq _ _ _ (by rw [applyEntry_length]; exact hcell)]
      rw [applyEntry_getD_outside _ _ _ _ _ _ _ (Or.inr (by omega))]

theorem sum_applyEntry (m : Nat) (w : ℚ) (inV : List ℚ) (inOff outOff : Nat)
    (out : List ℚ) (h : outOff + m ≤ out.length) :
    (applyEntry m w inV inOff outOff out).sum =
      out.sum + ((List.range m).map fun dim => w * inV.getD (inOff + dim) 0).sum := by
  induction m with
  | zero => simp [applyEntry]
  | succ m ih =>
    rw [applyEntry_succ, sum_addAt _ _ _ (by rw [applyEntry_length]; omega), ih (by omega)]
    rw [range_succ_append]
    simp
    ring

theorem applyStencilConsistent_cons (m : Nat) (inV : List ℚ) (outOff : Nat)
    (e : InterpolationElement) (es : InterpolationElements) (out : List ℚ) :
    applyStencilConsistent m inV outOff (e :: es) out =
      applyStencilConsistent m inV outOff es
        (applyEntry m e.weight inV (e.vertexId * m) outOff out) := rfl

theorem applyStencilConsistent_length (m : Nat) (inV : List ℚ) (outOff : Nat)
    (elems : InterpolationElements) (out : List ℚ) :
    (applyStencilConsistent m inV outOff elems out).length = out.length := by
  induction elems generalizing out with
  | nil => rfl
  | cons e es ih => rw [applyStencilConsistent_cons, ih, applyEntry_length]

theorem applyStencilConsistent_getD_outside (m : Nat) (inV : List ℚ) (outOff k : Nat)
    (elems : InterpolationElements) (out : List ℚ)
    (hk : k < outOff ∨ outOff + m ≤ k) :
    (applyStencilConsistent m inV outOff elems out).getD k 0 = out.getD k 0 := by
  induction elems generalizing out with
  | nil => rfl
  | cons e es ih =>
    rw [applyStencilConsistent_cons, ih, applyEntry_getD_outside _ _ _ _ _ _ _ hk]

theorem applyStencilConsistent_getD_in (m : Nat) (inV : List ℚ) (outOff dim : Nat)
    (elems : InterpolationElements) (out : List ℚ)
    (hdim : dim < m) (hcell : outOff + dim < out.length) :
    (applyStencilConsistent m inV outOff elems out).getD (outOff + dim) 0 =
      out.getD (outOff + dim) 0 + stencilDot m inV elems dim := by
  induction elems generalizing out with
  | nil => simp [applyStencilConsistent, stencilDot]
  | cons e es ih =>
    rw [applyStencilConsistent_cons,
      ih _ (by rw [applyEntry_length]; exact hcell),
      applyEntry_getD_in _ _ _ _ _ _ _ hdim hcell]
    simp [stencilDot]
    ring

theorem applyStencilConservative_cons (m : Nat) (inV : List ℚ) (inOff : Nat)
    (e : InterpolationElement) (es : InterpolationElements) (out : List ℚ) :
    applyStencilConservative m inV inOff (e :: es) out =
      applyStencilConservative m inV inOff es
        (applyEntry m e.weight inV inOff (e.vertexId * m) out) := rfl

theorem applyStencilConservative_length (m : Nat) (inV : List ℚ) (inOff : Nat)
    (elems : InterpolationElements) (out : List ℚ) :
    (applyStencilConservative m inV inOff elems out).length = out.length := by
  induction elems generalizing out with
  | nil => rfl
  | cons e es ih => rw [applyStencilConservative_cons, ih, applyEntry_length]

theorem sum_applyStencilConservative (m : Nat) (inV : List ℚ) (inOff : Nat)
    (elems : InterpolationElements) (out : List ℚ)
    (hb : ∀ e ∈ elems, e.vertexId * m + m ≤ out.length) :
    (applyStencilConservative m inV inOff elems out).sum =
      out.sum + stencilSpread m inV inOff elems := by
  induction elems generalizing out with
  | nil => simp [applyStencilConservative, stencilSpread]
  | cons e es ih =>
    rw [applyStencilConservative_cons,
      ih _ (fun e' he' => by
        rw [applyEntry_length]
        exact hb e' (List.mem_cons_of_mem e he')),
      sum_applyEntry _ _ _ _ _ _ (hb e (List.mem_cons_self e es))]
    simp [stencilSpread]
    ring

theorem consistentUpTo_succ (m : Nat) (inV : List ℚ) (wss : List InterpolationElements)
    (n : Nat) (out : List ℚ) :
    consistentUpTo m inV wss (n + 1) out =
      applyStencilConsistent m inV (n * m) (wss.getD n [])
        (consistentUpTo m inV wss n out) := by
  unfold consistentUpTo
  rw [range_succ_append, List.foldl_append]
  rfl

theorem consistentUpTo_length (m : Nat) (inV : List ℚ) (wss : List InterpolationElements)
    (n : Nat) (out : List ℚ) :
    (consistentUpTo m inV wss n out).length = out.length := by
  induction n with
  | zero => rfl
  | succ n ih => rw [consistentUpTo_succ, applyStencilConsistent_length, ih]

theorem consistentUpTo_getD_high (m : Nat) (inV : List ℚ)
    (wss : List InterpolationElements) (n k : Nat) (out : List ℚ) (hk : n * m ≤ k) :
    (consistentUpTo m inV wss n out).getD k 0 = out.getD k 0 := by
  induction n with
  | zero => rfl
  | succ n ih =>
    have hs : (n + 1) * m = n * m + m := by ring
    rw [consistentUpTo_succ,
      applyStencilConsistent_getD_outside _ _ _ _ _ _ (Or.inr (by omega))]
    exact ih (by omega)

theorem consistentUpTo_getD_cell (m : Nat) (inV : List ℚ)
    (wss : List InterpolationElements) (n i dim : Nat) (out : List ℚ)
    (hi : i < n) (hdim : dim < m) (hcell : i * m + dim < out.length) :
    (consistentUpTo m inV wss n out).getD (i * m + dim) 0 =
      out.getD (i * m + dim) 0 + stencilDot m inV (wss.getD i []) dim := by
  induction n with
  | zero => omega
  | succ n ih =>
    rw [consistentUpTo_succ]
    rcases Nat.lt_or_ge i n with h | h
    · have hle : i * m + m ≤ n * m := by
        have h1 : (i + 1) * m ≤ n * m := Nat.mul_le_mul_right m h
        calc i * m + m = (i + 1) * m := by ring
        _ ≤ n * m := h1
      rw [applyStencilConsistent_getD_outside _ _ _ _ _ _ (Or.inl (by omega))]
      exact ih h
    · have hin : i = n := by omega
      subst hin
      rw [applyStencilConsistent_getD_in _ _ _ _ _ _ hdim
        (by rw [consistentUpTo_length]; exact hcell)]
      rw [consistentUpTo_getD_high _ _ _ _ _ _ (by omega)]

theorem conservativeUpTo_succ (m : Nat) (inV : List ℚ)
    (wss : List InterpolationElements) (n : Nat) (out : List ℚ) :
    conservativeUpTo m inV wss (n + 1) out =
      applyStencilConservative m inV (n * m) (wss.getD n [])
        (conservativeUpTo m inV wss n out) := by
  unfold conservativeUpTo
  rw [range_succ_append, List.foldl_append]
  rfl

theorem conservativeUpTo_length (m : Nat) (inV : List ℚ)
    (wss : List InterpolationElements) (n : Nat) (out : List ℚ) :
    (conservativeUpTo m inV wss n out).length = out.length := by
  induction n with
  | zero => rfl
  | succ n ih => rw [conservativeUpTo_succ, applyStencilConservative_length, ih]

theorem sum_conservativeUpTo (m : Nat) (inV : List ℚ)
    (wss : List InterpolationElements) (n : Nat) (out : List ℚ)
    (hb : ∀ i < n, ∀ e ∈ wss.getD i [], e.vertexId * m + m ≤ out.length) :
    (conservativeUpTo m inV wss n out).sum =
      out.sum +
        ((List.range n).map fun i => stencilSpread m inV (i * m) (wss.getD i [])).sum := by
  induction n with
  | zero => simp [conservativeUpTo]
  | succ n ih =>
    rw [conservativeUpTo_succ,
      sum_applyStencilConservative _ _ _ _ _ (fun e he => by
        rw [conservativeUpTo_length]
        exact hb n (by omega) e he),
      ih (fun i hi e he => hb i (by omega) e he),
      range_succ_append]
    simp
    ring

theorem getD_sum (xs : List ℚ) :
    ((List.range xs.length).map fun j => xs.getD j 0).sum = xs.sum := by
  induction xs with
  | nil => simp
  | cons x t ih =>
    have hlen : (x :: t).length = t.length + 1 := rfl
    rw [hlen, List.range_succ_eq_map]
    simp only [List.map_cons, List.map_map, List.sum_cons]
    have h2 : ((List.range t.length).map fun j => (x :: t).getD (j + 1) 0) =
        (List.range t.length).map fun j => t.getD j 0 := by
      refine List.map_congr_left ?_
      intro j _
      rfl
    have h3 : ((fun j => (x :: t).getD j 0) ∘ Nat.succ) =
        fun j => (x :: t).getD (j + 1) 0 := rfl
    rw [h3, h2, ih]
    rfl

theorem sum_range_add (f : Nat → ℚ) (a m : Nat) :
    ((List.range (a + m)).map f).sum =
      ((List.range a).map f).sum + ((List.range m).map fun d => f (a + d)).sum := by
  induction m with
  | zero => simp
  | succ m ih =>
    have h1 : a + (m + 1) = (a + m) + 1 := rfl
    rw [h1, range_succ_append, range_succ_append]
    simp [ih]
    ring

theorem sum_range_mul (f : Nat → ℚ) (n m : Nat) :
    ((List.range (n * m)).map f).sum =
      ((List.range n).map fun i => ((List.range m).map fun d => f (i * m + d)).sum).sum := by
  induction n with
  | zero => simp
  | succ n ih =>
    have h1 : (n + 1) * m = n * m + m := by ring
    rw [h1, sum_range_add, ih, range_succ_append]
    simp

/-! ### Reductions of `mapOp` when every assertion passes -/

theorem boundsOkConsistent_of (m : Nat) (wss : List InterpolationElements)
    (inLen outLen : Nat)
    (h : ∀ i < wss.length, ∀ e ∈ wss.getD i [], ∀ dim < m,
      i * m + dim < outLen ∧ e.vertexId * m + dim < inLen) :
    boundsOkConsistent m wss inLen outLen = true := by
  unfold boundsOkConsistent
  rw [List.all_eq_true]
  intro i hi
  rw [List.all_eq_true]
  intro e he
  rw [List.all_eq_true]
  intro dim hd
  have h2 := h i (List.mem_range.mp hi) e he dim (List.mem_range.mp hd)
  simp [h2.1, h2.2]

theorem boundsOkConservative_of (m : Nat) (wss : List InterpolationElements)
    (inLen outLen : Nat)
    (h : ∀ i < wss.length, ∀ e ∈ wss.getD i [], ∀ dim < m,
      i * m + dim < inLen ∧ e.vertexId * m + dim < outLen) :
    boundsOkConservative m wss inLen outLen = true := by
  unfold boundsOkConservative
  rw [List.all_eq_true]
  intro i hi
  rw [List.all_eq_true]
  intro e he
  rw [List.all_eq_true]
  intro dim hd
  have h2 := h i (List.mem_range.mp hi) e he dim (List.mem_range.mp hd)
  simp [h2.1, h2.2]

theorem mapOp_consistent_eq (s : NPMapping) (m : Nat) (iv ov : List ℚ)
    (hc : s.constraint = .consistent)
    (hlen : s.weights.length = s.output.vertices.length)
    (hb : boundsOkConsistent m s.weights iv.length ov.length = true) :
    mapOp s m m iv ov = .ok (s, mapConsistentLoop m iv s.weights ov) := by
  unfold mapOp
  rw [if_neg (by simp), hc]
  dsimp only
  rw [if_neg (by simp [hlen]), if_pos hb]

theorem mapOp_conservative_eq (s : NPMapping) (m : Nat) (iv ov : List ℚ)
    (hc : s.constraint = .conservative)
    (hlen : s.weights.length = s.input.vertices.length)
    (hb : boundsOkConservative m s.weights iv.length ov.length = true) :
    mapOp s m m iv ov = .ok (s, mapConservativeLoop m iv s.weights ov) := by
  unfold mapOp
  rw [if_neg (by simp), hc]
  dsimp only
  rw [if_neg (by simp [hlen]), if_pos hb]

theorem mapConsistentLoop_eq_upTo (m : Nat) (inV : List ℚ)
    (wss : List InterpolationElements) (out : List ℚ) :
    mapConsistentLoop m inV wss out = consistentUpTo m inV wss wss.length out := rfl

theorem mapConservativeLoop_eq_upTo (m : Nat) (inV : List ℚ)
    (wss : List InterpolationElements) (out : List ℚ) :
    mapConservativeLoop m inV wss out = conservativeUpTo m inV wss wss.length out := rfl

/-! ### Characterisation of the 2D cascade -/

theorem firstInteriorEdge_nil (q : List ℚ) (edges : List Edge) :
    firstInteriorEdge q edges [] = none := rfl

theorem firstInteriorEdge_cons (q : List ℚ) (edges : List Edge) (mt : MatchType)
    (rest : List MatchType) :
    firstInteriorEdge q edges (mt :: rest) =
      if isInterior (generateInterpolationElementsEdge q (edges.getD mt.index default))
      then some (generateInterpolationElementsEdge q (edges.getD mt.index default))
      else firstInteriorEdge q edges rest := rfl

theorem firstInteriorEdge_eq_some (q : List ℚ) (edges : List Edge) :
    ∀ (ms : List MatchType) (w : InterpolationElements),
      firstInteriorEdge q edges ms = some w →
      ∃ pre mt post, ms = pre ++ mt :: post ∧
        (∀ mt2 ∈ pre,
          isInterior (generateInterpolationElementsEdge q
            (edges.getD mt2.index default)) = false) ∧
        w = generateInterpolationElementsEdge q (edges.getD mt.index default) ∧
        isInterior w = true := by
  intro ms
  induction ms with
  | nil =>
    intro w h
    rw [firstInteriorEdge_nil] at h
    cases h
  | cons mt rest ih =>
    intro w h
    rw [firstInteriorEdge_cons] at h
    by_cases hint : isInterior
        (generateInterpolationElementsEdge q (edges.getD mt.index default)) = true
    · rw [if_pos hint] at h
      injection h with h
      exact ⟨[], mt, rest, rfl, by simp, h.symm, h ▸ hint⟩
    · rw [if_neg hint] at h
      obtain ⟨pre, mt2, post, hms, hpre, hw, hi2⟩ := ih w h
      refine ⟨mt :: pre, mt2, post, by rw [hms]; rfl, ?_, hw, hi2⟩
      intro mt3 hmt3
      rcases List.mem_cons.mp hmt3 with rfl | h3
      · simpa using hint
      · exact hpre mt3 h3

theorem firstInteriorEdge_eq_none (q : List ℚ) (edges : List Edge) :
    ∀ ms : List MatchType, firstInteriorEdge q edges ms = none →
      ∀ mt ∈ ms,
        isInterior (generateInterpolationElementsEdge q
          (edges.getD mt.index default)) = false := by
  intro ms
  induction ms with
  | nil =>
    intro _ mt hmt
    exact absurd hmt (List.not_mem_nil mt)
  | cons mt rest ih =>
    intro h mt2 hmt2
    rw [firstInteriorEdge_cons] at h
    by_cases hint : isInterior
        (generateInterpolationElementsEdge q (edges.getD mt.index default)) = true
    · rw [if_pos hint] at h
      cases h
    · rw [if_neg hint] at h
      rcases List.mem_cons.mp hmt2 with rfl | h2
      · simpa using hint
      · exact ih h mt2 h2

theorem nearLe_fst_le (a b : ℚ × Nat) (h : nearLe a b = true) : a.1 ≤ b.1 := by
  rcases (nearLe_iff a b).mp h with h1 | ⟨h1, _⟩
  · exact le_of_lt h1
  · exact le_of_eq h1

theorem kNearest_one (dist : α → ℚ) [Inhabited α] (prims : List α) (hn : prims ≠ []) :
    ∃ j < prims.length, kNearest dist prims 1 = [j] ∧
      ∀ j2 < prims.length,
        dist (prims.getD j default) ≤ dist (prims.getD j2 default) := by
  unfold kNearest
  set pairs := (List.range prims.length).map fun i => (dist (prims.getD i default), i)
    with hpairs
  have hplen : pairs.length = prims.length := by simp [hpairs]
  have hperm := insertionSortBy_perm nearLe pairs
  have hsorted := insertionSortBy_sorted nearLe nearLe_total nearLe_trans pairs
  have hne : insertionSortBy nearLe pairs ≠ [] := by
    intro h0
    have hl := hperm.length_eq
    rw [h0, hplen] at hl
    exact hn (List.eq_nil_of_length_eq_zero hl.symm)
  obtain ⟨p, tail, hcons⟩ := List.exists_cons_of_ne_nil hne
  have hp_mem : p ∈ pairs := hperm.mem_iff.mp (by rw [hcons]; exact List.mem_cons_self p tail)
  obtain ⟨ii, hii, hpeq⟩ := List.mem_map.mp hp_mem
  have hii2 : ii < prims.length := List.mem_range.mp hii
  have hp2 : p.2 = ii := by rw [← hpeq]
  have hp1 : p.1 = dist (prims.getD ii default) := by rw [← hpeq]
  refine ⟨p.2, by omega, ?_, ?_⟩
  · rw [hcons]
    rfl
  · intro j2 hj2
    have hpair2 : (dist (prims.getD j2 default), j2) ∈ pairs := by
      rw [hpairs]
      exact List.mem_map.mpr ⟨j2, List.mem_range.mpr hj2, rfl⟩
    have hpair2s : (dist (prims.getD j2 default), j2) ∈ insertionSortBy nearLe pairs :=
      hperm.mem_iff.mpr hpair2
    rw [hcons] at hpair2s
    have hple : p.1 ≤ dist (prims.getD j2 default) := by
      rcases List.mem_cons.mp hpair2s with heq | htail
      · rw [← heq]
      · rw [hcons] at hsorted
        rcases hsorted with _ | ⟨hhead, _⟩
        exact nearLe_fst_le _ _ (hhead _ htail)
    rw [hp2, ← hp1]
    exact hple

theorem vertexStencil_nearest (q : List ℚ) (vs : List Vertex)
    (prev : InterpolationElements) (hvs : vs ≠ []) :
    ∃ j < vs.length, vertexStencil q vs prev = [⟨(vs.getD j default).id, 1⟩] ∧
      ∀ j2 < vs.length,
        ptSqDist q (vs.getD j default).coords ≤ ptSqDist q (vs.getD j2 default).coords := by
  obtain ⟨j, hj, hk, hmin⟩ := kNearest_one (fun v => ptSqDist q v.coords) vs hvs
  refine ⟨j, hj, ?_, hmin⟩
  unfold vertexStencil
  rw [hk]
  rfl

/-! ### Claim theorems -/

/-- C9: the constructor declares mesh requirements exactly as a function of the
constraint: a consistent instance requires FULL on the input mesh and VERTEX on the
output mesh; a conservative instance requires VERTEX on the input mesh and FULL on the
output mesh. -/
theorem constructor_requirements (d : Nat) (mi mo : Mesh) :
    ((NearestProjectionMapping .consistent d mi mo).inputRequirement = .full ∧
      (NearestProjectionMapping .consistent d mi mo).outputRequirement = .vertex) ∧
    (NearestProjectionMapping .conservative d mi mo).inputRequirement = .vertex ∧
    (NearestProjectionMapping .conservative d mi mo).outputRequirement = .full :=
  ⟨⟨rfl, rfl⟩, rfl, rfl⟩

/-- C6 counterexample: the comparator `MatchType::operator<` does not use the primitive
identifier as a secondary key: these two distinct candidates at equal distance are
mutually incomparable, so the comparator is not a total order on candidates. -/
theorem matchType_lt_not_total :
    MatchType.lt ⟨1, 0⟩ ⟨1, 1⟩ = false ∧ MatchType.lt ⟨1, 1⟩ ⟨1, 0⟩ = false ∧
    (⟨1, 0⟩ : MatchType) ≠ ⟨1, 1⟩ := by
  refine ⟨by simp [MatchType.lt], by simp [MatchType.lt], ?_⟩
  intro h
  have h2 := congrArg MatchType.index h
  simp at h2

/-- C6 amended: the sort on candidates uses distance as its only key: the comparator
`MatchType::operator<` holds exactly when the distance is strictly smaller (the
primitive identifier is never consulted, so equal-distance candidates are comparator
equivalent rather than identifier ordered), and the modelled `sort` deterministically
yields a permutation of the candidates that is sorted by ascending distance, so the
first-interior selection over it is by ascending distance. -/
theorem matchSort_distance_only (ms : List MatchType) (a b : MatchType) :
    (MatchType.lt a b = true ↔ a.distance < b.distance) ∧
    List.Perm (sortMatches ms) ms ∧
    List.Pairwise (fun x y => x.distance ≤ y.distance) (sortMatches ms) :=
  ⟨by simp [MatchType.lt], sortMatches_perm ms, sortMatches_sorted ms⟩

/-- C5 counterexample: `map` invoked while `hasComputedMapping` is false does not fail
with a StaleStencils error: on this freshly constructed instance it succeeds outright
(and on instances with a size mismatch it dies on an internal size assertion instead). -/
theorem map_stale_counterexample :
    hasComputedMapping exStateA = false ∧
    mapOp exStateA 1 1 [] [] = .ok (exStateA, []) :=
  ⟨rfl, rfl⟩

/-- C5 amended: `map` performs no staleness check: its field output is independent of
the `hasComputedMapping` flag, and when the stencil-table size disagrees with the
origin-vertex count (the situation after construction or `clear` on a nonempty origin
mesh) the internal size `assertion` aborts the process — an assertion failure, not a
StaleStencils error; when the sizes agree, `map` proceeds normally even though
`hasComputedMapping` is false, leaving the output field to whatever the loop computes. -/
theorem map_ignores_staleness (s : NPMapping) (b : Bool) (inD outD : Nat)
    (iv ov : List ℚ) (hd : inD = outD) :
    Except.map Prod.snd (mapOp { s with hasComputedFlag := b } inD outD iv ov) =
      Except.map Prod.snd (mapOp s inD outD iv ov) ∧
    (s.weights.length ≠ (originsMesh s).vertices.length →
      mapOp s inD outD iv ov = .error .assertionFailure) := by
  obtain ⟨c, dm, ri, ro, mi, mo, ws, fl⟩ := s
  constructor
  · unfold mapOp
    cases c <;> dsimp only <;> repeat' (first | rfl | split)
  · intro hne
    unfold mapOp
    rw [if_neg (by simp [hd])]
    cases c
    · dsimp only [originsMesh] at hne
      dsimp only
      rw [if_pos hne]
    · dsimp only [originsMesh] at hne
      dsimp only
      rw [if_pos hne]

/-- C5 amended witness: concrete instance with flag false and a one-vertex origin mesh:
flag independence holds and the size assertion aborts the call. -/
theorem map_ignores_staleness_witness :
    Except.map Prod.snd (mapOp { exStateB with hasComputedFlag := true } 1 1 [] []) =
      Except.map Prod.snd (mapOp exStateB 1 1 [] []) ∧
    mapOp exStateB 1 1 [] [] = .error .assertionFailure := by
  have h := map_ignores_staleness exStateB true 1 1 [] [] rfl
  exact ⟨h.1, h.2 (by decide)⟩

/-- C4 counterexample: on a consistent instance whose search (input) mesh has zero
primitives of every dimension while an origin vertex exists, `computeMapping` does not
fail with EmptySearchSpace and does not leave the instance Empty: it completes with
`hasComputedMapping` true and a populated (one empty stencil) table. -/
theorem computeMapping_emptySearch_counterexample :
    (searchMesh exStateB).vertices = [] ∧ (searchMesh exStateB).edges = [] ∧
    (searchMesh exStateB).triangles = [] ∧ (originsMesh exStateB).vertices ≠ [] ∧
    hasComputedMapping (computeMapping exStateB) = true ∧
    (computeMapping exStateB).weights = [[]] :=
  ⟨rfl, rfl, rfl, by decide, rfl, rfl⟩

/-- C4 amended: `computeMapping` has no failure path at all: even when the search mesh
has zero primitives of every dimension while origin vertices exist, it runs to
completion, sets `hasComputedMapping` true, and (when the stencil table was empty
before the call, as after construction or `clear`) leaves every origin vertex with an
empty stencil; no EmptySearchSpace error exists and the instance finishes in the
Computed state, not Empty. -/
theorem computeMapping_never_fails (s : NPMapping)
    (hv : (searchMesh s).vertices = []) (he : (searchMesh s).edges = [])
    (ht : (searchMesh s).triangles = []) (hw : s.weights = []) :
    hasComputedMapping (computeMapping s) = true ∧
    (computeMapping s).weights = List.replicate (originsMesh s).vertices.length [] := by
  refine ⟨rfl, ?_⟩
  unfold computeMapping
  dsimp only
  rw [hw, resizeStencils_nil]
  by_cases h2 : s.dimensions = 2
  · rw [if_pos h2]
    rw [List.eq_replicate_iff]
    constructor
    · simp
    · intro x hx
      rcases List.mem_map.mp hx with ⟨i, _, rfl⟩
      rw [getD_replicate_nil]
      exact stencilFor2D_emptySearch _ _ _ hv he
  · rw [if_neg h2]
    rw [List.eq_replicate_iff]
    constructor
    · simp
    · intro x hx
      rcases List.mem_map.mp hx with ⟨i, _, rfl⟩
      rw [getD_replicate_nil]
      exact stencilFor3D_emptySearch _ _ _ hv he ht

/-- C4 amended witness: the concrete empty-search instance completes in the Computed
state with one empty stencil. -/
theorem computeMapping_never_fails_witness :
    hasComputedMapping (computeMapping exStateB) = true ∧
    (computeMapping exStateB).weights = List.replicate 1 [] := by
  have h := computeMapping_never_fails exStateB rfl rfl rfl rfl
  refine ⟨h.1, ?_⟩
  rw [h.2]
  rfl

/-- C8: the per-instance state machine: `clear` always leaves the instance Empty
(empty stencil table, `hasComputedMapping` false); `computeMapping` always leaves it
Computed (`hasComputedMapping` true); `tagMeshFirstRound` always finishes Empty because
it ends with `clear`; and a successful `map` returns the instance unchanged, hence
preserves the Computed state. -/
theorem state_machine_transitions (s : NPMapping) (inD outD : Nat) (iv ov : List ℚ) :
    (clear s).weights = [] ∧ hasComputedMapping (clear s) = false ∧
    hasComputedMapping (computeMapping s) = true ∧
    (tagMeshFirstRound s).weights = [] ∧
    hasComputedMapping (tagMeshFirstRound s) = false ∧
    ∀ p, mapOp s inD outD iv ov = .ok p → p.1 = s := by
  refine ⟨rfl, rfl, rfl, rfl, rfl, ?_⟩
  intro p hp
  unfold mapOp at hp
  split at hp
  · exact absurd hp (by simp)
  · split at hp
    · split at hp
      · exact absurd hp (by simp)
      · split at hp
        · simp only [Except.ok.injEq] at hp
          rw [← hp]
        · exact absurd hp (by simp)
    · split at hp
      · exact absurd hp (by simp)
      · split at hp
        · simp only [Except.ok.injEq] at hp
          rw [← hp]
        · exact absurd hp (by simp)

/-- C3: in 2 dimensions (with a nonempty search-vertex set, which the claim's vertex
fallback presupposes), the stencil `computeMapping` stores for an origin vertex is
either the projection onto an edge candidate whose stencil is interior (all weights
≥ 0) at minimal distance among all interior candidates of the sorted 4-nearest edge
query — or, when no candidate is interior (including when the search mesh has no
edges), the unit-weight stencil on a nearest search-mesh vertex. -/
theorem computeMapping_2d_stencil_selection (s : NPMapping) (i : Nat)
    (q : List ℚ) (cands : List MatchType) (st : InterpolationElements)
    (h2 : s.dimensions = 2)
    (hvs : (searchMesh s).vertices ≠ [])
    (hi : i < (originsMesh s).vertices.length)
    (hq : q = ((originsMesh s).vertices.getD i default).coords)
    (hcands : cands = edgeMatches q (searchMesh s).edges)
    (hst : st = (computeMapping s).weights.getD i []) :
    (∃ mt ∈ cands,
      st = generateInterpolationElementsEdge q
        ((searchMesh s).edges.getD mt.index default) ∧
      isInterior st = true ∧
      ∀ mt2 ∈ cands,
        isInterior (generateInterpolationElementsEdge q
          ((searchMesh s).edges.getD mt2.index default)) = true →
        mt.distance ≤ mt2.distance) ∨
    ((∀ mt ∈ cands,
        isInterior (generateInterpolationElementsEdge q
          ((searchMesh s).edges.getD mt.index default)) = false) ∧
      ∃ j < (searchMesh s).vertices.length,
        st = [⟨((searchMesh s).vertices.getD j default).id, 1⟩] ∧
        ∀ j2 < (searchMesh s).vertices.length,
          ptSqDist q ((searchMesh s).vertices.getD j default).coords ≤
            ptSqDist q ((searchMesh s).vertices.getD j2 default).coords) := by
  subst hq hcands hst
  rw [computeMapping_weights_getD s i hi, if_pos h2]
  unfold stencilFor2D
  have hsorted : List.Pairwise (fun a b => a.distance ≤ b.distance)
      (edgeMatches ((originsMesh s).vertices.getD i default).coords
        (searchMesh s).edges) := by
    unfold edgeMatches
    exact sortMatches_sorted _
  cases hfi : firstInteriorEdge ((originsMesh s).vertices.getD i default).coords
      (searchMesh s).edges
      (edgeMatches ((originsMesh s).vertices.getD i default).coords
        (searchMesh s).edges) with
  | some w =>
    left
    obtain ⟨pre, mt, post, hms, hpre, hw, hint⟩ := firstInteriorEdge_eq_some _ _ _ _ hfi
    have hmem : mt ∈ edgeMatches ((originsMesh s).vertices.getD i default).coords
        (searchMesh s).edges := by
      rw [hms]
      exact List.mem_append_right _ (List.mem_cons_self _ _)
    refine ⟨mt, hmem, hw, hint, ?_⟩
    intro mt2 hmt2 hint2
    rw [hms] at hmt2 hsorted
    rcases List.mem_append.mp hmt2 with hp | hc
    · rw [hpre mt2 hp] at hint2
      cases hint2
    · rcases List.mem_cons.mp hc with rfl | hpost
      · exact le_refl _
      · rcases (List.pairwise_append.mp hsorted).2.1 with _ | ⟨hhead, _⟩
        exact hhead mt2 hpost
  | none =>
    right
    refine ⟨firstInteriorEdge_eq_none _ _ _ hfi, ?_⟩
    exact vertexStencil_nearest _ _ _ hvs

/-- C3 witness: on the concrete one-vertex search mesh with no edges, the candidate
list is empty and origin 0 receives the unit-weight stencil on the nearest (only)
search vertex. -/
theorem computeMapping_2d_stencil_selection_witness :
    (∃ mt ∈ ([] : List MatchType),
      [(⟨0, 1⟩ : InterpolationElement)] = generateInterpolationElementsEdge []
        ((searchMesh exStateD).edges.getD mt.index default) ∧
      isInterior [(⟨0, 1⟩ : InterpolationElement)] = true ∧
      ∀ mt2 ∈ ([] : List MatchType),
        isInterior (generateInterpolationElementsEdge []
          ((searchMesh exStateD).edges.getD mt2.index default)) = true →
        mt.distance ≤ mt2.distance) ∨
    ((∀ mt ∈ ([] : List MatchType),
        isInterior (generateInterpolationElementsEdge []
          ((searchMesh exStateD).edges.getD mt.index default)) = false) ∧
      ∃ j < (searchMesh exStateD).vertices.length,
        [(⟨0, 1⟩ : InterpolationElement)] =
          [⟨((searchMesh exStateD).vertices.getD j default).id, 1⟩] ∧
        ∀ j2 < (searchMesh exStateD).vertices.length,
          ptSqDist [] ((searchMesh exStateD).vertices.getD j default).coords ≤
            ptSqDist [] ((searchMesh exStateD).vertices.getD j2 default).coords) :=
  computeMapping_2d_stencil_selection exStateD 0 [] [] [⟨0, 1⟩] rfl
    (by decide) (by decide) rfl rfl rfl

/-- C1: for a consistent instance whose stencil table is populated (one stencil per
output vertex, all referenced input blocks in range) and whose every stencil has
weights summing to 1, mapping a constant input field c into an output field zeroed by
the caller makes every output-vertex component equal to c exactly. -/
theorem map_consistent_constant_field (s : NPMapping) (m : Nat) (c : ℚ)
    (iv ov : List ℚ)
    (hc : s.constraint = .consistent)
    (hpop : s.weights.length = s.output.vertices.length)
    (hsum : ∀ st ∈ s.weights, (st.map fun e => e.weight).sum = 1)
    (hconst : ∀ x ∈ iv, x = c)
    (hzero : ∀ x ∈ ov, x = 0)
    (hovlen : ov.length = s.weights.length * m)
    (hbound : ∀ st ∈ s.weights, ∀ e ∈ st, e.vertexId * m + m ≤ iv.length) :
    ∃ ov2, mapOp s m m iv ov = .ok (s, ov2) ∧ ov2.length = ov.length ∧
      ∀ j < ov2.length, ov2.getD j 0 = c := by
  have hgetmem : ∀ i, i < s.weights.length → s.weights.getD i [] ∈ s.weights := by
    intro i hi
    rw [List.getD_eq_getElem _ _ hi]
    exact List.getElem_mem _
  have hbOk : boundsOkConsistent m s.weights iv.length ov.length = true := by
    refine boundsOkConsistent_of _ _ _ _ ?_
    intro i hi e he dim hdim
    have h1 : (i + 1) * m ≤ s.weights.length * m := Nat.mul_le_mul_right m hi
    have h2 : i * m + m ≤ s.weights.length * m := by
      calc i * m + m = (i + 1) * m := by ring
      _ ≤ _ := h1
    constructor
    · rw [hovlen]
      omega
    · have h3 := hbound _ (hgetmem i hi) e he
      omega
  have hmap := mapOp_consistent_eq s m iv ov hc hpop hbOk
  refine ⟨_, hmap, ?_, ?_⟩
  · rw [mapConsistentLoop_eq_upTo, consistentUpTo_length]
  · intro j hj
    rw [mapConsistentLoop_eq_upTo] at hj ⊢
    rw [consistentUpTo_length] at hj
    have hm : 0 < m := by
      rcases Nat.eq_zero_or_pos m with h0 | h0
      · rw [h0, Nat.mul_zero] at hovlen
        omega
      · exact h0
    have hdim : j % m < m := Nat.mod_lt _ hm
    have hji : j = (j / m) * m + j % m := by
      have h5 := Nat.div_add_mod j m
      rw [Nat.mul_comm] at h5
      omega
    have hi : j / m < s.weights.length := by
      rw [hovlen] at hj
      exact (Nat.div_lt_iff_lt_mul hm).mpr hj
    have hst := hgetmem _ hi
    have hdot : stencilDot m iv (s.weights.getD (j / m) []) (j % m) = c := by
      unfold stencilDot
      have hcg : ((s.weights.getD (j / m) []).map fun e =>
          e.weight * iv.getD (e.vertexId * m + j % m) 0) =
          ((s.weights.getD (j / m) []).map fun e => e.weight * c) := by
        refine List.map_congr_left ?_
        intro e he
        have hb2 := hbound _ hst e he
        have hacc : e.vertexId * m + j % m < iv.length := by omega
        rw [List.getD_eq_getElem _ _ hacc, hconst _ (List.getElem_mem _)]
      rw [hcg, List.sum_map_mul_right, hsum _ hst, one_mul]
    have hz : ov.getD j 0 = 0 := by
      rw [List.getD_eq_getElem _ _ hj]
      exact hzero _ (List.getElem_mem _)
    rw [hji, consistentUpTo_getD_cell _ _ _ _ _ _ _ hi hdim (by omega), ← hji, hz,
      zero_add, hdot]

/-- C1 witness: identity stencils on a two-vertex mesh pair map the constant scalar
field 5 to the constant field 5. -/
theorem map_consistent_constant_field_witness :
    (∀ st ∈ exStateC1.weights, (st.map fun e => e.weight).sum = 1) ∧
    ∃ ov2, mapOp exStateC1 1 1 [5, 5] [0, 0] = .ok (exStateC1, ov2) ∧
      ov2.length = 2 ∧ ∀ j < ov2.length, ov2.getD j 0 = 5 := by
  have hsum : ∀ st ∈ exStateC1.weights, (st.map fun e => e.weight).sum = 1 := by
    intro st hst
    rcases List.mem_cons.mp hst with rfl | hst2
    · simp
    · rcases List.mem_cons.mp hst2 with rfl | hst3
      · simp
      · simp at hst3
  refine ⟨hsum, ?_⟩
  obtain ⟨ov2, h1, h2, h3⟩ :=
    map_consistent_constant_field exStateC1 1 5 [5, 5] [0, 0] rfl rfl hsum
      (by simp) (by simp) rfl (by decide)
  refine ⟨ov2, h1, ?_, h3⟩
  rw [h2]
  rfl

/-- C2: for a conservative instance whose every stencil is a partition of unity, `map`
of any input field (the output zeroed by the caller, all referenced output blocks in
range) produces an output field whose component total equals the input field's
component total exactly. -/
theorem map_conservative_conserves_sum (s : NPMapping) (m : Nat) (iv ov : List ℚ)
    (hc : s.constraint = .conservative)
    (hpop : s.weights.length = s.input.vertices.length)
    (hsum : ∀ st ∈ s.weights, (st.map fun e => e.weight).sum = 1)
    (hzero : ∀ x ∈ ov, x = 0)
    (hivlen : iv.length = s.weights.length * m)
    (hbound : ∀ st ∈ s.weights, ∀ e ∈ st, e.vertexId * m + m ≤ ov.length) :
    ∃ ov2, mapOp s m m iv ov = .ok (s, ov2) ∧ ov2.sum = iv.sum := by
  have hgetmem : ∀ i, i < s.weights.length → s.weights.getD i [] ∈ s.weights := by
    intro i hi
    rw [List.getD_eq_getElem _ _ hi]
    exact List.getElem_mem _
  have hbOk : boundsOkConservative m s.weights iv.length ov.length = true := by
    refine boundsOkConservative_of _ _ _ _ ?_
    intro i hi e he dim hdim
    have h1 : (i + 1) * m ≤ s.weights.length * m := Nat.mul_le_mul_right m hi
    have h2 : i * m + m ≤ s.weights.length * m := by
      calc i * m + m = (i + 1) * m := by ring
      _ ≤ _ := h1
    constructor
    · rw [hivlen]
      omega
    · have h3 := hbound _ (hgetmem i hi) e he
      omega
  have hmap := mapOp_conservative_eq s m iv ov hc hpop hbOk
  refine ⟨_, hmap, ?_⟩
  rw [mapConservativeLoop_eq_upTo,
    sum_conservativeUpTo _ _ _ _ _ (fun i hi e he => hbound _ (hgetmem i hi) e he),
    List.sum_eq_zero hzero, zero_add]
  have hsp : ∀ i ∈ List.range s.weights.length,
      stencilSpread m iv (i * m) (s.weights.getD i []) =
        ((List.range m).map fun d => iv.getD (i * m + d) 0).sum := by
    intro i hi
    have hst := hgetmem i (List.mem_range.mp hi)
    unfold stencilSpread
    have heq : ((s.weights.getD i []).map fun e =>
        ((List.range m).map fun dim => e.weight * iv.getD (i * m + dim) 0).sum) =
        ((s.weights.getD i []).map fun e =>
          e.weight * ((List.range m).map fun dim => iv.getD (i * m + dim) 0).sum) := by
      refine List.map_congr_left ?_
      intro e _
      rw [← List.sum_map_mul_left]
    rw [heq, List.sum_map_mul_right, hsum _ hst, one_mul]
  rw [List.map_congr_left hsp]
  have h6 := sum_range_mul (fun j => iv.getD j 0) s.weights.length m
  rw [← h6, ← hivlen, getD_sum]

/-- C2 witness: a single unit-weight stencil conserves the total of the field [7]. -/
theorem map_conservative_conserves_sum_witness :
    (∀ st ∈ exStateC2.weights, (st.map fun e => e.weight).sum = 1) ∧
    ∃ ov2, mapOp exStateC2 1 1 [7] [0] = .ok (exStateC2, ov2) ∧
      ov2.sum = ([7] : List ℚ).sum := by
  have hsum : ∀ st ∈ exStateC2.weights, (st.map fun e => e.weight).sum = 1 := by
    intro st hst
    rcases List.mem_cons.mp hst with rfl | hst2
    · simp
    · simp at hst2
  exact ⟨hsum,
    map_conservative_conserves_sum exStateC2 1 [7] [0] rfl rfl hsum
      (by simp) rfl (by decide)⟩

/-- C10: `computeMapping` always runs to completion and sets `hasComputedMapping` true,
for every input including a search mesh with no primitives of any dimension; an origin
vertex for which no edge/triangle candidate was accepted and whose vertex query
returned nothing (empty search-vertex set) is left with an empty stencil (the table
having been empty before the call), and the per-origin body of a subsequent `map`
contributes nothing for an origin whose stencil is empty, in either direction. -/
theorem computeMapping_total_emptyStencil (s : NPMapping) (i m inOff outOff : Nat)
    (inV out : List ℚ)
    (hv : (searchMesh s).vertices = [])
    (hw : s.weights = [])
    (hE : firstInteriorEdge ((originsMesh s).vertices.getD i default).coords
      (searchMesh s).edges
      (edgeMatches ((originsMesh s).vertices.getD i default).coords
        (searchMesh s).edges) = none)
    (hT : firstInteriorTri ((originsMesh s).vertices.getD i default).coords
      (searchMesh s).triangles
      (triMatches ((originsMesh s).vertices.getD i default).coords
        (searchMesh s).triangles) = none) :
    hasComputedMapping (computeMapping s) = true ∧
    (computeMapping s).weights.getD i [] = [] ∧
    applyStencilConsistent m inV outOff [] out = out ∧
    applyStencilConservative m inV inOff [] out = out := by
  refine ⟨rfl, ?_, rfl, rfl⟩
  rcases Nat.lt_or_ge i (originsMesh s).vertices.length with hi | hi
  · rw [computeMapping_weights_getD s i hi, hw, resizeStencils_nil, getD_replicate_nil]
    split
    · unfold stencilFor2D
      rw [hE]
      dsimp only
      unfold vertexStencil
      rw [hv, kNearest_nil]
    · unfold stencilFor3D
      rw [hT]
      dsimp only
      rw [hE]
      dsimp only
      unfold vertexStencil
      rw [hv, kNearest_nil]
  · rw [List.getD_eq_getElem?_getD,
      List.getElem?_eq_none (by rw [computeMapping_weights_length]; omega)]
    rfl

/-- C10 witness: the concrete empty-search instance: the mapping completes Computed,
origin 0 holds the empty stencil, and empty stencils contribute nothing in `map`. -/
theorem computeMapping_total_emptyStencil_witness :
    hasComputedMapping (computeMapping exStateB) = true ∧
    (computeMapping exStateB).weights.getD 0 [] = [] ∧
    applyStencilConsistent 1 [] 0 [] [] = [] ∧
    applyStencilConservative 1 [] 0 [] [] = [] :=
  computeMapping_total_emptyStencil exStateB 0 1 0 0 [] [] rfl rfl rfl rfl

/-- C7: after `tagMeshFirstRound`, on the tagged mesh (input for consistent, output for
conservative) every vertex referenced by some InterpolationElement of the freshly
computed stencil table with nonzero weight has its tag bit true, every vertex whose tag
bit was already true keeps it, and identifiers are untouched — provided the tagged
mesh's identifiers are unique and every nonzero-weight reference aliases a vertex of
that mesh (the spec's stencil/mesh aliasing invariants). -/
theorem tagMeshFirstRound_tags_referenced (s : NPMapping)
    (hnd : ((tagTargetMesh s).vertices.map Vertex.id).Nodup)
    (hrefs : ∀ st ∈ (computeMapping s).weights, ∀ e ∈ st,
      mathEquals e.weight 0 = false →
        e.vertexId ∈ (tagTargetMesh s).vertices.map Vertex.id) :
    ∀ j < (tagTargetMesh s).vertices.length,
      ((tagTargetMesh (tagMeshFirstRound s)).vertices.getD j default).id =
        ((tagTargetMesh s).vertices.getD j default).id ∧
      (((tagTargetMesh s).vertices.getD j default).tagged = true →
        ((tagTargetMesh (tagMeshFirstRound s)).vertices.getD j default).tagged = true) ∧
      ((∃ st ∈ (computeMapping s).weights, ∃ e ∈ st,
          mathEquals e.weight 0 = false ∧
          e.vertexId = ((tagTargetMesh s).vertices.getD j default).id) →
        ((tagTargetMesh (tagMeshFirstRound s)).vertices.getD j default).tagged = true) := by
  intro j hj
  rw [tagMeshFirstRound_mesh_eq]
  unfold tagVertices
  dsimp only
  rw [getD_map_lt _ _ _ _ default hj]
  have hmlen : ((tagTargetMesh s).vertices.map Vertex.id).length =
      (tagTargetMesh s).vertices.length := List.length_map _ _
  refine ⟨?_, ?_, ?_⟩
  · split <;> rfl
  · intro htag
    split
    · rfl
    · exact htag
  · intro ⟨st, hst, e, he, hz, hid⟩
    have hin : ((tagTargetMesh s).vertices.getD j default).id ∈
        collectTagged (tagTargetMesh s).vertices.length (computeMapping s).weights [] := by
      rw [← hmlen]
      rw [← hid]
      exact collectTagged_complete _ hnd _ []
        List.nodup_nil (fun x hx => absurd hx (List.not_mem_nil x)) hrefs st hst e he hz
    rw [if_pos hin]

/-- C7 witness: on the concrete one-vertex instance, `computeMapping` yields the
unit-weight stencil on input vertex 0; after `tagMeshFirstRound` that vertex is
tagged and keeps its identifier. -/
theorem tagMeshFirstRound_tags_referenced_witness :
    ((tagTargetMesh (tagMeshFirstRound exStateD)).vertices.getD 0 default).tagged = true ∧
    ((tagTargetMesh (tagMeshFirstRound exStateD)).vertices.getD 0 default).id = 0 := by
  have hw : (computeMapping exStateD).weights = [[⟨0, 1⟩]] := rfl
  have hrefs : ∀ st ∈ (computeMapping exStateD).weights, ∀ e ∈ st,
      mathEquals e.weight 0 = false →
        e.vertexId ∈ (tagTargetMesh exStateD).vertices.map Vertex.id := by
    rw [hw]
    intro st hst e he _
    rcases List.mem_cons.mp hst with rfl | hst2
    · rcases List.mem_cons.mp he with rfl | he2
      · exact List.mem_cons_self _ _
      · exact absurd he2 (List.not_mem_nil e)
    · exact absurd hst2 (List.not_mem_nil st)
  have h := tagMeshFirstRound_tags_referenced exStateD (by simp [tagTargetMesh, exStateD,
    NearestProjectionMapping, exMeshOneV]) hrefs 0 (by decide)
  refine ⟨?_, ?_⟩
  · refine h.2.2 ⟨[⟨0, 1⟩], ?_, ⟨0, 1⟩, List.mem_cons_self _ _, ?_, rfl⟩
    · rw [hw]
      exact List.mem_cons_self _ _
    · simp [mathEquals]
  · rw [h.1]
    rfl

/-- C8 witness: concrete transitions on a fresh instance, with the map-preservation
clause applied to a successful concrete call. -/
theorem state_machine_transitions_witness :
    (clear exStateA).weights = [] ∧
    hasComputedMapping (computeMapping exStateA) = true ∧
    hasComputedMapping (tagMeshFirstRound exStateA) = false ∧
    (exStateA, ([] : List ℚ)).1 = exStateA :=
  ⟨(state_machine_transitions exStateA 1 1 [] []).1,
   (state_machine_transitions exStateA 1 1 [] []).2.2.1,
   (state_machine_transitions exStateA 1 1 [] []).2.2.2.2.1,
   (state_machine_transitions exStateA 1 1 [] []).2.2.2.2.2 (exStateA, []) rfl⟩

end NPM
